import Mathlib

/-!
Shallow embedding of `broken_link_checker.py` (a crawler plus link verifier).

Network I/O (`requests.get` / `requests.head`) is modelled by oracle functions
passed as parameters: an oracle answers `Except.error e` (a raised exception
with message `e`) or `Except.ok` with the response data.  HTML parsing
(BeautifulSoup) is an external collaborator: for `extract_links` a document is
taken directly as the list of `href` attribute values of its anchor tags; for
`crawl` the composition of parsing and extraction is an abstract parameter.
`urllib.parse` (`urlparse` / `urljoin`) is modelled below after the CPython
implementation.
-/

namespace BLC

/-- Third component of a `check_link` outcome: an HTTP status code or the
string rendering of a raised exception. -/
inductive CheckStatus where
  | code (status : Nat)
  | err (msg : String)
deriving DecidableEq, Repr

/-- check_link (broken_link_checker.py lines 37-44): issue a HEAD request with
the configured timeout and `allow_redirects=True`; a status `>= 400` gives
`(url, False, status)`, any other status gives `(url, True, status)`, and a
raised exception `e` gives `(url, False, str(e))`.  The `head` oracle models
`requests.head`.  The function consults no GET oracle at all: the source has
no escalation path from HEAD to GET. -/
def check_link (head : String → Except String Nat) (url : String) :
    String × Bool × CheckStatus :=
  match head url with
  | Except.ok status =>
      if status ≥ 400 then (url, false, CheckStatus.code status)
      else (url, true, CheckStatus.code status)
  | Except.error e => (url, false, CheckStatus.err e)

/-- fetch_page (lines 14-24): GET the url; on status 200 return the body text,
on any other status print a warning and return None, on a raised exception
print an error and return None.  The `http` oracle models `requests.get`,
answering `(status_code, text)`. -/
def fetch_page (http : String → Except String (Nat × String)) (url : String) :
    Option String :=
  match http url with
  | Except.ok (status, text) => if status = 200 then some text else none
  | Except.error _ => none

/-- Accumulator of the for-loop over extracted links (lines 63-68):
the result set `all_links`, the work list `to_visit`, and a ghost trace `enq`
of every entry ever placed on the work list. -/
structure LinkAcc where
  all_links : List String
  to_visit : List (String × Nat)
  enq : List (String × Nat)
deriving Repr, DecidableEq

/-- Body of the for-loop over extracted links (lines 63-68): drop the link if
the same-domain filter rejects it, otherwise add it to the result set and,
when `current_depth < depth`, enqueue `(link, current_depth + 1)`.  The
Python work list appends at its end and pops from its end, so it is modelled
with its end at the Lean list head: append = cons.  The Python result set is
modelled as a duplicate-free list (insertion only when not yet present). -/
def processLinks (netloc : String → String) (same_domain_only : Bool)
    (base_domain : String) (current_depth depth : Nat) :
    List String → LinkAcc → LinkAcc
  | [], acc => acc
  | link :: links, acc =>
    if same_domain_only && netloc link != base_domain then
      processLinks netloc same_domain_only base_domain current_depth depth links acc
    else
      let all := if link ∈ acc.all_links then acc.all_links else link :: acc.all_links
      if current_depth < depth then
        processLinks netloc same_domain_only base_domain current_depth depth links
          ⟨all, (link, current_depth + 1) :: acc.to_visit,
            (link, current_depth + 1) :: acc.enq⟩
      else
        processLinks netloc same_domain_only base_domain current_depth depth links
          ⟨all, acc.to_visit, acc.enq⟩

/-- Final state of a finished crawl: the result set plus the source's visited
set and two ghost traces (`fetched` records each fetch_page call with the
depth of its entry; `enq` records every entry ever placed on the work list,
the initial seed entry included). -/
structure CrawlResult where
  all_links : List String
  visited : List String
  fetched : List (String × Nat)
  enq : List (String × Nat)
deriving Repr, DecidableEq

/-- While-loop of crawl (lines 52-69), fuel-bounded (`none` = fuel ran out;
`crawlLoop_terminates` exhibits sufficient fuel for finite link graphs).
Pop from the work-list head (= Python list end); skip entries already
visited or deeper than `depth`; otherwise mark visited, fetch the page, and
on `None` or an empty body (Python `if not html`) skip link extraction;
otherwise run the link loop over `extract current_url html`. -/
def crawlLoop (fetch : String → Option String)
    (extract : String → String → List String) (netloc : String → String)
    (depth : Nat) (same_domain_only : Bool) (base_domain : String) :
    Nat → List (String × Nat) → List String → List String →
    List (String × Nat) → List (String × Nat) → Option CrawlResult
  | _, [], visited, all_links, fetched, enq =>
      some ⟨all_links, visited, fetched, enq⟩
  | 0, _ :: _, _, _, _, _ => none
  | fuel + 1, (current_url, current_depth) :: rest, visited, all_links, fetched, enq =>
    if current_url ∈ visited ∨ depth < current_depth then
      crawlLoop fetch extract netloc depth same_domain_only base_domain
        fuel rest visited all_links fetched enq
    else
      match fetch current_url with
      | none =>
          crawlLoop fetch extract netloc depth same_domain_only base_domain
            fuel rest (current_url :: visited) all_links
            ((current_url, current_depth) :: fetched) enq
      | some html =>
        if html = "" then
          crawlLoop fetch extract netloc depth same_domain_only base_domain
            fuel rest (current_url :: visited) all_links
            ((current_url, current_depth) :: fetched) enq
        else
          let acc := processLinks netloc same_domain_only base_domain
            current_depth depth (extract current_url html)
            ⟨all_links, rest, enq⟩
          crawlLoop fetch extract netloc depth same_domain_only base_domain
            fuel acc.to_visit (current_url :: visited) acc.all_links
            ((current_url, current_depth) :: fetched) acc.enq

/-- crawl (lines 46-70): `base_domain = urlparse(base_url).netloc`, the work
list starts with `(base_url, 0)`, and visited / result sets start empty. -/
def crawl (fetch : String → Option String)
    (extract : String → String → List String) (netloc : String → String)
    (base_url : String) (depth : Nat) (same_domain_only : Bool) (fuel : Nat) :
    Option CrawlResult :=
  crawlLoop fetch extract netloc depth same_domain_only (netloc base_url)
    fuel [(base_url, 0)] [] [] [] [(base_url, 0)]

/-- Whether a link passes the same-domain filter of line 64 (negation of the
skip condition `same_domain_only and urlparse(link).netloc != base_domain`). -/
def domOk (netloc : String → String) (same_domain_only : Bool)
    (base_domain : String) (link : String) : Bool :=
  !(same_domain_only && netloc link != base_domain)

/-- Links a page contributes during crawl: empty when its fetch fails or the
body is empty, otherwise the extracted links that pass the domain filter. -/
def linksOf (fetch : String → Option String)
    (extract : String → String → List String) (netloc : String → String)
    (same_domain_only : Bool) (base_domain : String) (u : String) :
    List String :=
  match fetch u with
  | none => []
  | some html =>
    if html = "" then []
    else (extract u html).filter (domOk netloc same_domain_only base_domain)

/-- `Reach seed succ n u`: u is reachable from the seed in at most n successor
steps through the link graph `succ`. -/
def Reach (seed : String) (succ : String → List String) : Nat → String → Prop
  | 0, u => u = seed
  | n + 1, u => Reach seed succ n u ∨ ∃ v, Reach seed succ n v ∧ u ∈ succ v

/-- Python str.startswith, via the character lists of the strings. -/
def strStartsWith (s p : String) : Bool := p.toList.isPrefixOf s.toList

/-- Lines 104-105: prepend "http://" when the CLI url carries no scheme
prefix. -/
def normalizeBase (url : String) : String :=
  if strStartsWith url "http://" || strStartsWith url "https://" then url
  else "http://" ++ url

/-- Outcome of the link-discovery phase of main (lines 108-118): `fatal` is
the depth-0 abort "Cannot proceed without fetching the base page." -/
inductive DiscoverResult where
  | fatal
  | found (links : List String)
deriving Repr, DecidableEq

/-- Link discovery in main (lines 108-118): with depth > 0 run crawl; with
depth = 0 fetch the base page (fatal on Python `not html`, i.e. None or ""),
extract its links, and when --same-domain is set keep only links whose netloc
equals the base page's netloc.  `none` = crawl ran out of fuel. -/
def discover (http : String → Except String (Nat × String))
    (extract : String → String → List String) (netloc : String → String)
    (base : String) (depth : Nat) (same_domain : Bool) (fuel : Nat) :
    Option DiscoverResult :=
  if 0 < depth then
    match crawl (fetch_page http) extract netloc base depth same_domain fuel with
    | none => none
    | some r => some (DiscoverResult.found r.all_links)
  else
    match fetch_page http base with
    | none => some DiscoverResult.fatal
    | some html =>
      if html = "" then some DiscoverResult.fatal
      else
        let links := extract base html
        some (DiscoverResult.found
          (if same_domain then links.filter (fun l => netloc l == netloc base)
           else links))

/-- Outcomes gathered by the verification loop (lines 126-135): one
check_link result per submitted URL. -/
def collectOutcomes (head : String → Except String Nat)
    (links : List String) : List (String × Bool × CheckStatus) :=
  links.map (check_link head)

/-- Broken list accumulated by the verification loop (lines 126-135):
`(url, status)` for each outcome whose ok flag is False. -/
def brokenOf (outcomes : List (String × Bool × CheckStatus)) :
    List (String × CheckStatus) :=
  outcomes.filterMap (fun r => if r.2.1 then none else some (r.1, r.2.2))

/-- Count of outcomes whose ok flag is True. -/
def healthyCount (outcomes : List (String × Bool × CheckStatus)) : Nat :=
  (outcomes.filter (fun r => r.2.1)).length

/-- Exit disposition of main (lines 103-149): 1 when discovery is fatal (the
depth-0 seed-fetch abort of lines 112-114); 0 when no links were found
("No links found." then a plain return, lines 120-122) or the broken list is
empty (sys.exit(0), line 149); 2 when the broken list is nonempty
(sys.exit(2), line 146).  `none` = crawl ran out of fuel. -/
def main_exit (http : String → Except String (Nat × String))
    (head : String → Except String Nat)
    (extract : String → String → List String) (netloc : String → String)
    (url : String) (depth : Nat) (same_domain : Bool) (fuel : Nat) :
    Option Nat :=
  let base := normalizeBase url
  match discover http extract netloc base depth same_domain fuel with
  | none => none
  | some DiscoverResult.fatal => some 1
  | some (DiscoverResult.found links) =>
    if links = [] then some 0
    else if brokenOf (collectOutcomes head links) = [] then some 0
    else some 2

/-! Model of the urllib.parse collaborator, following the CPython
implementation of urlparse / urlunparse / urljoin on the URL syntax fragment
exercised here (the WHATWG control-character and whitespace stripping steps
are omitted: no input considered contains such characters). -/

/-- Characters allowed in a scheme after its initial letter. -/
def isSchemeChar (c : Char) : Bool := c.isAlphanum || c == '+' || c == '-' || c == '.'

/-- Split "scheme:rest" when the prefix before the first ':' is a valid
scheme occurring at index > 0; the scheme is lowercased. -/
def splitScheme (s : String) : Option (String × String) :=
  let cs := s.toList
  let pre := cs.takeWhile (fun c => c != ':')
  if pre.length = 0 || pre.length = cs.length then none
  else if (pre.headD ' ').isAlpha && pre.all isSchemeChar then
    some (String.mk (pre.map Char.toLower), String.mk (cs.drop (pre.length + 1)))
  else none

/-- Netloc split of `_splitnetloc`: the chunk after "//" (already dropped by
the caller) up to the first '/', '?' or '#'. -/
def splitNetloc (s : String) : String × String :=
  let cs := s.toList
  let n := cs.takeWhile (fun c => c != '/' && c != '?' && c != '#')
  (String.mk n, String.mk (cs.drop n.length))

/-- Split at the first occurrence of ch: (before, after); after = "" when ch
is absent (CPython leaves the component empty in both cases, and downstream
urlunsplit treats the empty component as absent). -/
def splitFirst (ch : Char) (s : String) : String × String :=
  let cs := s.toList
  let pre := cs.takeWhile (fun c => c != ch)
  (String.mk pre, String.mk (cs.drop (pre.length + 1)))

/-- Result of urlsplit: scheme, netloc, path, query, fragment. -/
structure UrlSplit where
  scheme : String
  netloc : String
  path : String
  query : String
  fragment : String
deriving Repr, DecidableEq

/-- urllib.parse.urlsplit(url, scheme=default): optional "scheme:", optional
"//netloc", then the fragment is split off at the first '#' and the query at
the first '?' of what precedes it. -/
def urlsplit (url : String) (default : String) : UrlSplit :=
  let (scheme, rest) :=
    match splitScheme url with
    | some (s, r) => (s, r)
    | none => (default, url)
  let (netloc, rest2) :=
    if strStartsWith rest "//" then splitNetloc (String.mk (rest.toList.drop 2))
    else ("", rest)
  let (rest3, fragment) := splitFirst '#' rest2
  let (path, query) := splitFirst '?' rest3
  ⟨scheme, netloc, path, query, fragment⟩

/-- urllib.parse._splitparams: split ";params" out of the last path
segment. -/
def splitparams (pathStr : String) : String × String :=
  let cs := pathStr.toList
  let search := if cs.contains '/' then (cs.reverse.takeWhile (fun c => c != '/')).reverse else cs
  let pre := search.takeWhile (fun c => c != ';')
  if pre.length = search.length then (pathStr, "")
  else
    let cut := cs.length - search.length + pre.length
    (String.mk (cs.take cut), String.mk (cs.drop (cut + 1)))

/-- urllib.parse.uses_relative. -/
def usesRelative : List String :=
  ["", "ftp", "http", "gopher", "nntp", "imap", "wais", "file", "https",
   "shttp", "mms", "prospero", "rtsp", "rtspu", "sftp", "svn", "svn+ssh",
   "ws", "wss"]

/-- urllib.parse.uses_netloc. -/
def usesNetloc : List String :=
  ["", "ftp", "http", "gopher", "nntp", "telnet", "imap", "wais", "file",
   "mms", "https", "shttp", "snews", "prospero", "rtsp", "rtspu", "rsync",
   "svn", "svn+ssh", "sftp", "nfs", "git", "git+ssh", "ws", "wss"]

/-- urllib.parse.uses_params. -/
def usesParams : List String :=
  ["", "ftp", "hdl", "prospero", "http", "imap", "https", "shttp", "rtsp",
   "rtspu", "sip", "sips", "mms", "sftp", "tel"]

/-- Result of urlparse: urlsplit's components with params split from the
path. -/
structure UrlParse where
  scheme : String
  netloc : String
  path : String
  params : String
  query : String
  fragment : String
deriving Repr, DecidableEq

/-- urllib.parse.urlparse(url, scheme=default). -/
def urlparse (url : String) (default : String) : UrlParse :=
  let s := urlsplit url default
  if usesParams.contains s.scheme && s.path.toList.contains ';' then
    let (p, params) := splitparams s.path
    ⟨s.scheme, s.netloc, p, params, s.query, s.fragment⟩
  else ⟨s.scheme, s.netloc, s.path, "", s.query, s.fragment⟩

/-- urllib.parse.urlunsplit. -/
def urlunsplit (scheme netloc path query fragment : String) : String :=
  let url := path
  let url :=
    if netloc != "" || strStartsWith url "//" then
      "//" ++ netloc ++ (if url != "" && !strStartsWith url "/" then "/" ++ url else url)
    else url
  let url := if scheme != "" then scheme ++ ":" ++ url else url
  let url := if query != "" then url ++ "?" ++ query else url
  if fragment != "" then url ++ "#" ++ fragment else url

/-- urllib.parse.urlunparse. -/
def urlunparse (scheme netloc path params query fragment : String) : String :=
  let p := if params != "" then path ++ ";" ++ params else path
  urlunsplit scheme netloc p query fragment

/-- Python str.split for a single-character separator, over char lists. -/
def splitChar (ch : Char) : List Char → List (List Char)
  | [] => [[]]
  | c :: cs =>
    let r := splitChar ch cs
    if c == ch then [] :: r
    else
      match r with
      | [] => [[c]]
      | g :: gs => (c :: g) :: gs

/-- Python str.split for a single-character separator, over strings. -/
def splitStr (ch : Char) (s : String) : List String :=
  (splitChar ch s.toList).map String.mk

/-- Python `segments[1:-1] = filter(None, segments[1:-1])`: keep the first
and last elements, drop empty strings strictly inside. -/
def keepEndsFilter (segs : List String) : List String :=
  match segs with
  | [] => []
  | [a] => [a]
  | a :: rest =>
    a :: (rest.dropLast.filter (fun s => s != "")) ++ [rest.getLastD ""]

/-- urllib.parse.urljoin(base, url), following CPython: parse both with the
base scheme as default; bail out to `url` on scheme mismatch; reuse the base
netloc when the reference has none; an empty path-and-params reference keeps
the base path (and query, when the reference has none); otherwise merge the
path segments and resolve "." and ".." entries. -/
def urljoin (base url : String) : String :=
  if base = "" then url
  else if url = "" then base
  else
    let b := urlparse base ""
    let u := urlparse url b.scheme
    if u.scheme != b.scheme || !(usesRelative.contains u.scheme) then url
    else if usesNetloc.contains u.scheme && u.netloc != "" then
      urlunparse u.scheme u.netloc u.path u.params u.query u.fragment
    else
      let netloc := if usesNetloc.contains u.scheme then b.netloc else u.netloc
      if u.path == "" && u.params == "" then
        let query := if u.query == "" then b.query else u.query
        urlunparse u.scheme netloc b.path b.params query u.fragment
      else
        let baseParts0 := splitStr '/' b.path
        let baseParts :=
          if baseParts0.getLastD "" != "" then baseParts0.dropLast else baseParts0
        let segments :=
          if strStartsWith u.path "/" then splitStr '/' u.path
          else keepEndsFilter (baseParts ++ splitStr '/' u.path)
        let resolved := segments.foldl
          (fun acc seg =>
            if seg = ".." then acc.dropLast
            else if seg = "." then acc
            else acc ++ [seg]) ([] : List String)
        let resolved2 :=
          if segments.getLastD "" = ".." || segments.getLastD "" = "." then
            resolved ++ [""]
          else resolved
        let joined := String.intercalate "/" resolved2
        urlunparse u.scheme netloc (if joined = "" then "/" else joined)
          u.params u.query u.fragment

/-- extract_links (lines 26-35).  BeautifulSoup is the parsing collaborator:
the document is taken directly as the list of href attribute values of its
anchor tags, in document order.  Each href is resolved with urljoin against
base_url and kept when its urlparse scheme is http or https; the Python set
then returned as a list is modelled as an order-preserving dedup. -/
def extract_links (base_url : String) (hrefs : List String) : List String :=
  hrefs.foldl
    (fun links href =>
      let full_url := urljoin base_url href
      if (urlparse full_url "").scheme ∈ ["http", "https"] then
        if full_url ∈ links then links else links ++ [full_url]
      else links)
    []

/-! Concrete collaborators used to exercise the model on closed inputs. -/

/-- Test oracle: every request raises "connection refused". -/
def httpRefused : String → Except String (Nat × String) :=
  fun _ => Except.error "connection refused"

/-- Test oracle: every request answers 200 with an empty body. -/
def httpEmpty : String → Except String (Nat × String) :=
  fun _ => Except.ok (200, "")

/-- Test oracle: every HEAD answers 200. -/
def headOk : String → Except String Nat := fun _ => Except.ok 200

/-- Test oracle: every HEAD answers 404. -/
def headMissing : String → Except String Nat := fun _ => Except.ok 404

/-- Test collaborator: no page yields links. -/
def extractNil : String → String → List String := fun _ _ => []

/-- Test collaborator: every URL is on host a.test. -/
def netlocA : String → String := fun _ => "a.test"

/-- Test page fetcher: every fetch fails. -/
def fetchNone : String → Option String := fun _ => none

/-- Demo fetcher: only the seed page https://a.test/ has a body. -/
def fetchDemo : String → Option String :=
  fun u => if u = "https://a.test/" then some "<html>" else none

/-- Demo extractor: the seed page links to an in-domain page and a
cross-domain page. -/
def extractDemo : String → String → List String :=
  fun u _ => if u = "https://a.test/" then ["https://a.test/p1", "https://b.test/x"] else []

/-- Demo netloc: a.test for URLs under https://a.test, b.test otherwise. -/
def netlocDemo : String → String :=
  fun u => if strStartsWith u "https://a.test" then "a.test" else "b.test"

/-- Crawl result of the demo graph at depth 1 with the same-domain filter
enabled: the cross-domain link is dropped, the in-domain link is collected
and fetched at depth 1. -/
def crawlDemo : CrawlResult :=
  ⟨["https://a.test/p1"], ["https://a.test/p1", "https://a.test/"],
    [("https://a.test/p1", 1), ("https://a.test/", 0)],
    [("https://a.test/p1", 1), ("https://a.test/", 0)]⟩

/-! Helper lemmas. -/

/-- check_link always reports the url it was asked about. -/
theorem check_link_fst (head : String → Except String Nat) (url : String) :
    (check_link head url).1 = url := by
  rcases h : head url with e | s
  · simp [check_link, h]
  · by_cases hs : s ≥ 400 <;> simp [check_link, h, hs]

/-- Membership in the set-insertion step of processLinks and extract_links. -/
theorem mem_insertList (x l : String) (xs : List String) :
    (x ∈ if l ∈ xs then xs else l :: xs) ↔ x = l ∨ x ∈ xs := by
  by_cases h : l ∈ xs
  · rw [if_pos h]
    constructor
    · exact Or.inr
    · rintro (rfl | hx)
      · exact h
      · exact hx
  · rw [if_neg h]
    exact List.mem_cons

/-- Membership in the result set produced by the link loop. -/
theorem processLinks_mem_all (netloc : String → String) (sdo : Bool) (bd : String)
    (cd depth : Nat) (links : List String) :
    ∀ (acc : LinkAcc) (x : String),
      x ∈ (processLinks netloc sdo bd cd depth links acc).all_links ↔
        x ∈ acc.all_links ∨ (x ∈ links ∧ domOk netloc sdo bd x = true) := by
  induction links with
  | nil => intro acc x; simp [processLinks]
  | cons l ls ih =>
    intro acc x
    by_cases hc : (sdo && netloc l != bd) = true
    · have hdoml : domOk netloc sdo bd l = false := by simp [domOk, hc]
      rw [processLinks, if_pos hc, ih]
      constructor
      · rintro (h | ⟨h1, h2⟩)
        · exact Or.inl h
        · exact Or.inr ⟨List.mem_cons_of_mem _ h1, h2⟩
      · rintro (h | ⟨h1, h2⟩)
        · exact Or.inl h
        · rcases List.mem_cons.mp h1 with rfl | h1
          · rw [hdoml] at h2; cases h2
          · exact Or.inr ⟨h1, h2⟩
    · have hc' : (sdo && netloc l != bd) = false := by
        revert hc; cases sdo && netloc l != bd <;> simp
      have hdoml : domOk netloc sdo bd l = true := by simp [domOk, hc']
      have step :
          ∀ acc2 : LinkAcc,
            (x ∈ (processLinks netloc sdo bd cd depth ls acc2).all_links ↔
              x ∈ acc2.all_links ∨ (x ∈ ls ∧ domOk netloc sdo bd x = true)) →
            acc2.all_links =
              (if l ∈ acc.all_links then acc.all_links else l :: acc.all_links) →
            (x ∈ (processLinks netloc sdo bd cd depth ls acc2).all_links ↔
              x ∈ acc.all_links ∨ (x ∈ l :: ls ∧ domOk netloc sdo bd x = true)) := by
        intro acc2 hih hall
        rw [hih, hall]
        constructor
        · rintro (h | ⟨h1, h2⟩)
          · rcases (mem_insertList x l acc.all_links).mp h with rfl | hx
            · exact Or.inr ⟨List.mem_cons_self _ _, hdoml⟩
            · exact Or.inl hx
          · exact Or.inr ⟨List.mem_cons_of_mem _ h1, h2⟩
        · rintro (h | ⟨h1, h2⟩)
          · exact Or.inl ((mem_insertList x l acc.all_links).mpr (Or.inr h))
          · rcases List.mem_cons.mp h1 with heq | h1
            · exact Or.inl ((mem_insertList x l acc.all_links).mpr (Or.inl heq))
            · exact Or.inr ⟨h1, h2⟩
      rw [processLinks, if_neg hc]
      by_cases hd : cd < depth
      · rw [if_pos hd]
        exact step _ (ih _ x) rfl
      · rw [if_neg hd]
        exact step _ (ih _ x) rfl

/-- Membership in the work list produced by the link loop. -/
theorem processLinks_mem_to_visit (netloc : String → String) (sdo : Bool) (bd : String)
    (cd depth : Nat) (links : List String) :
    ∀ (acc : LinkAcc) (p : String × Nat),
      p ∈ (processLinks netloc sdo bd cd depth links acc).to_visit ↔
        p ∈ acc.to_visit ∨
          ∃ l, l ∈ links ∧ domOk netloc sdo bd l = true ∧ cd < depth ∧ p = (l, cd + 1) := by
  induction links with
  | nil => intro acc p; simp [processLinks]
  | cons l ls ih =>
    intro acc p
    by_cases hc : (sdo && netloc l != bd) = true
    · have hdoml : domOk netloc sdo bd l = false := by simp [domOk, hc]
      rw [processLinks, if_pos hc, ih]
      constructor
      · rintro (h | ⟨l', h1, h2, h3, h4⟩)
        · exact Or.inl h
        · exact Or.inr ⟨l', List.mem_cons_of_mem _ h1, h2, h3, h4⟩
      · rintro (h | ⟨l', h1, h2, h3, h4⟩)
        · exact Or.inl h
        · rcases List.mem_cons.mp h1 with rfl | h1
          · rw [hdoml] at h2; cases h2
          · exact Or.inr ⟨l', h1, h2, h3, h4⟩
    · have hc' : (sdo && netloc l != bd) = false := by
        revert hc; cases sdo && netloc l != bd <;> simp
      have hdoml : domOk netloc sdo bd l = true := by simp [domOk, hc']
      rw [processLinks, if_neg hc]
      by_cases hd : cd < depth
      · rw [if_pos hd, ih]
        constructor
        · rintro (h | ⟨l', h1, h2, h3, h4⟩)
          · rcases List.mem_cons.mp h with rfl | hx
            · exact Or.inr ⟨l, List.mem_cons_self _ _, hdoml, hd, rfl⟩
            · exact Or.inl hx
          · exact Or.inr ⟨l', List.mem_cons_of_mem _ h1, h2, h3, h4⟩
        · rintro (h | ⟨l', h1, h2, h3, h4⟩)
          · exact Or.inl (List.mem_cons_of_mem _ h)
          · rcases List.mem_cons.mp h1 with rfl | h1
            · exact Or.inl (h4 ▸ List.mem_cons_self _ _)
            · exact Or.inr ⟨l', h1, h2, h3, h4⟩
      · rw [if_neg hd, ih]
        constructor
        · rintro (h | ⟨l', h1, h2, h3, h4⟩)
          · exact Or.inl h
          · exact Or.inr ⟨l', List.mem_cons_of_mem _ h1, h2, h3, h4⟩
        · rintro (h | ⟨l', h1, h2, h3, h4⟩)
          · exact Or.inl h
          · exact absurd h3 hd

/-- Membership in the enqueue trace produced by the link loop (the trace is
extended exactly when the work list is). -/
theorem processLinks_mem_enq (netloc : String → String) (sdo : Bool) (bd : String)
    (cd depth : Nat) (links : List String) :
    ∀ (acc : LinkAcc) (p : String × Nat),
      p ∈ (processLinks netloc sdo bd cd depth links acc).enq ↔
        p ∈ acc.enq ∨
          ∃ l, l ∈ links ∧ domOk netloc sdo bd l = true ∧ cd < depth ∧ p = (l, cd + 1) := by
  induction links with
  | nil => intro acc p; simp [processLinks]
  | cons l ls ih =>
    intro acc p
    by_cases hc : (sdo && netloc l != bd) = true
    · have hdoml : domOk netloc sdo bd l = false := by simp [domOk, hc]
      rw [processLinks, if_pos hc, ih]
      constructor
      · rintro (h | ⟨l', h1, h2, h3, h4⟩)
        · exact Or.inl h
        · exact Or.inr ⟨l', List.mem_cons_of_mem _ h1, h2, h3, h4⟩
      · rintro (h | ⟨l', h1, h2, h3, h4⟩)
        · exact Or.inl h
        · rcases List.mem_cons.mp h1 with rfl | h1
          · rw [hdoml] at h2; cases h2
          · exact Or.inr ⟨l', h1, h2, h3, h4⟩
    · have hc' : (sdo && netloc l != bd) = false := by
        revert hc; cases sdo && netloc l != bd <;> simp
      have hdoml : domOk netloc sdo bd l = true := by simp [domOk, hc']
      rw [processLinks, if_neg hc]
      by_cases hd : cd < depth
      · rw [if_pos hd, ih]
        constructor
        · rintro (h | ⟨l', h1, h2, h3, h4⟩)
          · rcases List.mem_cons.mp h with rfl | hx
            · exact Or.inr ⟨l, List.mem_cons_self _ _, hdoml, hd, rfl⟩
            · exact Or.inl hx
          · exact Or.inr ⟨l', List.mem_cons_of_mem _ h1, h2, h3, h4⟩
        · rintro (h | ⟨l', h1, h2, h3, h4⟩)
          · exact Or.inl (List.mem_cons_of_mem _ h)
          · rcases List.mem_cons.mp h1 with rfl | h1
            · exact Or.inl (h4 ▸ List.mem_cons_self _ _)
            · exact Or.inr ⟨l', h1, h2, h3, h4⟩
      · rw [if_neg hd, ih]
        constructor
        · rintro (h | ⟨l', h1, h2, h3, h4⟩)
          · exact Or.inl h
          · exact Or.inr ⟨l', List.mem_cons_of_mem _ h1, h2, h3, h4⟩
        · rintro (h | ⟨l', h1, h2, h3, h4⟩)
          · exact Or.inl h
          · exact absurd h3 hd

/-- The link loop grows the work list by at most one entry per link. -/
theorem processLinks_to_visit_length (netloc : String → String) (sdo : Bool)
    (bd : String) (cd depth : Nat) (links : List String) :
    ∀ acc : LinkAcc,
      (processLinks netloc sdo bd cd depth links acc).to_visit.length ≤
        acc.to_visit.length + links.length := by
  induction links with
  | nil => intro acc; simp [processLinks]
  | cons l ls ih =>
    intro acc
    by_cases hc : (sdo && netloc l != bd) = true
    · rw [processLinks, if_pos hc]
      have := ih acc
      simp only [List.length_cons]
      omega
    · rw [processLinks, if_neg hc]
      by_cases hd : cd < depth
      · rw [if_pos hd]
        have := ih ⟨if l ∈ acc.all_links then acc.all_links else l :: acc.all_links,
          (l, cd + 1) :: acc.to_visit, (l, cd + 1) :: acc.enq⟩
        simp only [List.length_cons] at this ⊢
        omega
      · rw [if_neg hd]
        have := ih ⟨if l ∈ acc.all_links then acc.all_links else l :: acc.all_links,
          acc.to_visit, acc.enq⟩
        simp only [List.length_cons] at this ⊢
        omega

/-- Reachability within a bound is monotone in the bound. -/
theorem Reach_mono (seed : String) (succ : String → List String) :
    ∀ n m, m ≤ n → ∀ u, Reach seed succ m u → Reach seed succ n u := by
  intro n
  induction n with
  | zero =>
    intro m hm u hu
    have : m = 0 := Nat.le_zero.mp hm
    rw [this] at hu
    exact hu
  | succ n ih =>
    intro m hm u hu
    by_cases h : m ≤ n
    · exact Or.inl (ih m h u hu)
    · have : m = n + 1 := by omega
      rw [this] at hu
      exact hu

/-- Membership in `linksOf`. -/
theorem mem_linksOf (fetch : String → Option String)
    (extract : String → String → List String) (netloc : String → String)
    (sdo : Bool) (bd : String) (u x : String) :
    x ∈ linksOf fetch extract netloc sdo bd u ↔
      ∃ html, fetch u = some html ∧ html ≠ "" ∧ x ∈ extract u html ∧
        domOk netloc sdo bd x = true := by
  rcases h : fetch u with _ | html
  · simp [linksOf, h]
  · by_cases he : html = ""
    · subst he; simp [linksOf, h]
    · simp [linksOf, h, he, List.mem_filter]

/-- Along the crawl loop every entry of the enqueue trace keeps its depth
at most the configured maximum: entries are pushed only under the
`current_depth < depth` guard of line 67. -/
theorem crawlLoop_enq_depth (fetch : String → Option String)
    (extract : String → String → List String) (netloc : String → String)
    (depth : Nat) (sdo : Bool) (bd : String) :
    ∀ (fuel : Nat) (tv : List (String × Nat)) (visited all : List String)
      (f e : List (String × Nat)) (r : CrawlResult),
      crawlLoop fetch extract netloc depth sdo bd fuel tv visited all f e = some r →
      (∀ p ∈ e, p.2 ≤ depth) → ∀ p ∈ r.enq, p.2 ≤ depth := by
  intro fuel
  induction fuel with
  | zero =>
    intro tv visited all f e r hsome he
    cases tv with
    | nil =>
      rw [crawlLoop] at hsome
      cases hsome
      exact he
    | cons hd tl =>
      rw [crawlLoop] at hsome
      cases hsome
  | succ fuel ih =>
    intro tv visited all f e r hsome he
    cases tv with
    | nil =>
      rw [crawlLoop] at hsome
      cases hsome
      exact he
    | cons hd tl =>
      obtain ⟨cu, cd⟩ := hd
      rw [crawlLoop] at hsome
      by_cases hskip : cu ∈ visited ∨ depth < cd
      · rw [if_pos hskip] at hsome
        exact ih tl visited all f e r hsome he
      · rw [if_neg hskip] at hsome
        split at hsome
        · exact ih tl (cu :: visited) all ((cu, cd) :: f) e r hsome he
        · rename_i html hfetch
          split at hsome
          · exact ih tl (cu :: visited) all ((cu, cd) :: f) e r hsome he
          · refine ih _ _ _ _ _ r hsome ?_
            intro p hp
            rcases (processLinks_mem_enq netloc sdo bd cd depth
                (extract cu html) ⟨all, tl, e⟩ p).mp hp with h | ⟨l, _, _, h3, h4⟩
            · exact he p h
            · rw [h4]
              exact h3

/-- Along the crawl loop, every fetched page and every enqueued entry is
reachable from the seed within the depth bound, provided the work list
carries only entries reachable within their recorded depth. -/
theorem crawlLoop_reach (fetch : String → Option String)
    (extract : String → String → List String) (netloc : String → String)
    (depth : Nat) (sdo : Bool) (bd : String) (seed : String) :
    ∀ (fuel : Nat) (tv : List (String × Nat)) (visited all : List String)
      (f e : List (String × Nat)) (r : CrawlResult),
      crawlLoop fetch extract netloc depth sdo bd fuel tv visited all f e = some r →
      (∀ p ∈ tv, Reach seed (linksOf fetch extract netloc sdo bd) p.2 p.1) →
      (∀ p ∈ f, Reach seed (linksOf fetch extract netloc sdo bd) depth p.1) →
      (∀ p ∈ e, Reach seed (linksOf fetch extract netloc sdo bd) depth p.1) →
      (∀ p ∈ r.fetched, Reach seed (linksOf fetch extract netloc sdo bd) depth p.1) ∧
        (∀ p ∈ r.enq, Reach seed (linksOf fetch extract netloc sdo bd) depth p.1) := by
  intro fuel
  induction fuel with
  | zero =>
    intro tv visited all f e r hsome htv hf he
    cases tv with
    | nil =>
      rw [crawlLoop] at hsome
      cases hsome
      exact ⟨hf, he⟩
    | cons hd tl =>
      rw [crawlLoop] at hsome
      cases hsome
  | succ fuel ih =>
    intro tv visited all f e r hsome htv hf he
    cases tv with
    | nil =>
      rw [crawlLoop] at hsome
      cases hsome
      exact ⟨hf, he⟩
    | cons hd tl =>
      obtain ⟨cu, cd⟩ := hd
      rw [crawlLoop] at hsome
      by_cases hskip : cu ∈ visited ∨ depth < cd
      · rw [if_pos hskip] at hsome
        exact ih tl visited all f e r hsome
          (fun p hp => htv p (List.mem_cons_of_mem _ hp)) hf he
      · rw [if_neg hskip] at hsome
        have hcd : cd ≤ depth :=
          Nat.not_lt.mp (fun h => hskip (Or.inr h))
        have hcu : Reach seed (linksOf fetch extract netloc sdo bd) depth cu :=
          Reach_mono seed _ depth cd hcd cu (htv (cu, cd) (List.mem_cons_self _ _))
        split at hsome
        · exact ih tl (cu :: visited) all ((cu, cd) :: f) e r hsome
            (fun p hp => htv p (List.mem_cons_of_mem _ hp))
            (fun p hp => by
              rcases List.mem_cons.mp hp with heq | hp2
              · rw [heq]; exact hcu
              · exact hf p hp2)
            he
        · rename_i html hfetch
          split at hsome
          · exact ih tl (cu :: visited) all ((cu, cd) :: f) e r hsome
              (fun p hp => htv p (List.mem_cons_of_mem _ hp))
              (fun p hp => by
                rcases List.mem_cons.mp hp with heq | hp2
                · rw [heq]; exact hcu
                · exact hf p hp2)
              he
          · rename_i hhtml
            have hcucd : Reach seed (linksOf fetch extract netloc sdo bd) cd cu :=
              htv (cu, cd) (List.mem_cons_self _ _)
            have hstep : ∀ l, l ∈ extract cu html → domOk netloc sdo bd l = true →
                Reach seed (linksOf fetch extract netloc sdo bd) (cd + 1) l := by
              intro l hl hdom
              exact Or.inr ⟨cu, hcucd,
                (mem_linksOf fetch extract netloc sdo bd cu l).mpr
                  ⟨html, hfetch, hhtml, hl, hdom⟩⟩
            refine ih _ _ _ _ _ r hsome ?_ ?_ ?_
            · intro p hp
              rcases (processLinks_mem_to_visit netloc sdo bd cd depth
                  (extract cu html) ⟨all, tl, e⟩ p).mp hp with h | ⟨l, h1, h2, h3, h4⟩
              · exact htv p (List.mem_cons_of_mem _ h)
              · rw [h4]
                exact hstep l h1 h2
            · intro p hp
              rcases List.mem_cons.mp hp with heq | hp2
              · rw [heq]; exact hcu
              · exact hf p hp2
            · intro p hp
              rcases (processLinks_mem_enq netloc sdo bd cd depth
                  (extract cu html) ⟨all, tl, e⟩ p).mp hp with h | ⟨l, h1, h2, h3, h4⟩
              · exact he p h
              · rw [h4]
                exact Reach_mono seed _ depth (cd + 1) h3 l (hstep l h1 h2)

/-- Along the crawl loop, the domain-passing links of every fetched page end
up in the result set. -/
theorem crawlLoop_links_complete (fetch : String → Option String)
    (extract : String → String → List String) (netloc : String → String)
    (depth : Nat) (sdo : Bool) (bd : String) :
    ∀ (fuel : Nat) (tv : List (String × Nat)) (visited all : List String)
      (f e : List (String × Nat)) (r : CrawlResult),
      crawlLoop fetch extract netloc depth sdo bd fuel tv visited all f e = some r →
      (∀ p ∈ f, ∀ l ∈ linksOf fetch extract netloc sdo bd p.1, l ∈ all) →
      ∀ p ∈ r.fetched, ∀ l ∈ linksOf fetch extract netloc sdo bd p.1, l ∈ r.all_links := by
  intro fuel
  induction fuel with
  | zero =>
    intro tv visited all f e r hsome hf
    cases tv with
    | nil =>
      rw [crawlLoop] at hsome
      cases hsome
      exact hf
    | cons hd tl =>
      rw [crawlLoop] at hsome
      cases hsome
  | succ fuel ih =>
    intro tv visited all f e r hsome hf
    cases tv with
    | nil =>
      rw [crawlLoop] at hsome
      cases hsome
      exact hf
    | cons hd tl =>
      obtain ⟨cu, cd⟩ := hd
      rw [crawlLoop] at hsome
      by_cases hskip : cu ∈ visited ∨ depth < cd
      · rw [if_pos hskip] at hsome
        exact ih tl visited all f e r hsome hf
      · rw [if_neg hskip] at hsome
        split at hsome
        · rename_i hfetch
          refine ih tl (cu :: visited) all ((cu, cd) :: f) e r hsome ?_
          intro p hp l hl
          rcases List.mem_cons.mp hp with heq | hp2
          · rw [heq] at hl
            simp [linksOf, hfetch] at hl
          · exact hf p hp2 l hl
        · rename_i html hfetch
          split at hsome
          · rename_i hhtml
            refine ih tl (cu :: visited) all ((cu, cd) :: f) e r hsome ?_
            intro p hp l hl
            rcases List.mem_cons.mp hp with heq | hp2
            · rw [heq] at hl
              simp [linksOf, hfetch, hhtml] at hl
            · exact hf p hp2 l hl
          · rename_i hhtml
            refine ih _ _ _ _ _ r hsome ?_
            intro p hp l hl
            rcases List.mem_cons.mp hp with heq | hp2
            · rw [heq] at hl
              rcases (mem_linksOf fetch extract netloc sdo bd cu l).mp hl with
                ⟨html2, hfetch2, _, hl2, hdom2⟩
              have : html2 = html := by
                rw [hfetch] at hfetch2
                exact (Option.some.inj hfetch2).symm
              rw [this] at hl2
              exact (processLinks_mem_all netloc sdo bd cd depth
                (extract cu html) ⟨all, tl, e⟩ l).mpr (Or.inr ⟨hl2, hdom2⟩)
            · exact (processLinks_mem_all netloc sdo bd cd depth
                (extract cu html) ⟨all, tl, e⟩ l).mpr (Or.inl (hf p hp2 l hl))

/-- Along the crawl loop, the fetch trace never repeats a URL: a page is
fetched only after passing the visited check, and every fetched URL is in
the visited set. -/
theorem crawlLoop_nodup (fetch : String → Option String)
    (extract : String → String → List String) (netloc : String → String)
    (depth : Nat) (sdo : Bool) (bd : String) :
    ∀ (fuel : Nat) (tv : List (String × Nat)) (visited all : List String)
      (f e : List (String × Nat)) (r : CrawlResult),
      crawlLoop fetch extract netloc depth sdo bd fuel tv visited all f e = some r →
      (f.map Prod.fst).Nodup →
      (∀ p ∈ f, p.1 ∈ visited) →
      (r.fetched.map Prod.fst).Nodup := by
  intro fuel
  induction fuel with
  | zero =>
    intro tv visited all f e r hsome hnd hvis
    cases tv with
    | nil =>
      rw [crawlLoop] at hsome
      cases hsome
      exact hnd
    | cons hd tl =>
      rw [crawlLoop] at hsome
      cases hsome
  | succ fuel ih =>
    intro tv visited all f e r hsome hnd hvis
    cases tv with
    | nil =>
      rw [crawlLoop] at hsome
      cases hsome
      exact hnd
    | cons hd tl =>
      obtain ⟨cu, cd⟩ := hd
      rw [crawlLoop] at hsome
      by_cases hskip : cu ∈ visited ∨ depth < cd
      · rw [if_pos hskip] at hsome
        exact ih tl visited all f e r hsome hnd hvis
      · rw [if_neg hskip] at hsome
        have hcu : cu ∉ visited := fun h => hskip (Or.inl h)
        have hnd2 : (((cu, cd) :: f).map Prod.fst).Nodup := by
          rw [List.map_cons]
          refine List.nodup_cons.mpr ⟨?_, hnd⟩
          intro hmem
          rcases List.mem_map.mp hmem with ⟨p, hp, hp2⟩
          have hpeq : p.1 = cu := hp2
          exact hcu (hpeq ▸ hvis p hp)
        have hvis2 : ∀ p ∈ (cu, cd) :: f, p.1 ∈ cu :: visited := by
          intro p hp
          rcases List.mem_cons.mp hp with heq | hp2
          · rw [heq]; exact List.mem_cons_self _ _
          · exact List.mem_cons_of_mem _ (hvis p hp2)
        split at hsome
        · exact ih tl (cu :: visited) all ((cu, cd) :: f) e r hsome hnd2 hvis2
        · split at hsome
          · exact ih tl (cu :: visited) all ((cu, cd) :: f) e r hsome hnd2 hvis2
          · exact ih _ _ _ _ _ r hsome hnd2 hvis2

/-- A link that passes the same-domain filter when the filter is enabled has
the base domain as its netloc. -/
theorem domOk_true_eq (netloc : String → String) (bd x : String) :
    domOk netloc true bd x = true → netloc x = bd := by
  simp [domOk]

/-- Along the crawl loop with the same-domain filter enabled, every URL in
the result set and every enqueued URL keeps netloc equal to the base
domain. -/
theorem crawlLoop_domain (fetch : String → Option String)
    (extract : String → String → List String) (netloc : String → String)
    (depth : Nat) (bd : String) :
    ∀ (fuel : Nat) (tv : List (String × Nat)) (visited all : List String)
      (f e : List (String × Nat)) (r : CrawlResult),
      crawlLoop fetch extract netloc depth true bd fuel tv visited all f e = some r →
      (∀ x ∈ all, netloc x = bd) →
      (∀ p ∈ e, netloc p.1 = bd) →
      (∀ x ∈ r.all_links, netloc x = bd) ∧ (∀ p ∈ r.enq, netloc p.1 = bd) := by
  intro fuel
  induction fuel with
  | zero =>
    intro tv visited all f e r hsome hall he
    cases tv with
    | nil =>
      rw [crawlLoop] at hsome
      cases hsome
      exact ⟨hall, he⟩
    | cons hd tl =>
      rw [crawlLoop] at hsome
      cases hsome
  | succ fuel ih =>
    intro tv visited all f e r hsome hall he
    cases tv with
    | nil =>
      rw [crawlLoop] at hsome
      cases hsome
      exact ⟨hall, he⟩
    | cons hd tl =>
      obtain ⟨cu, cd⟩ := hd
      rw [crawlLoop] at hsome
      by_cases hskip : cu ∈ visited ∨ depth < cd
      · rw [if_pos hskip] at hsome
        exact ih tl visited all f e r hsome hall he
      · rw [if_neg hskip] at hsome
        split at hsome
        · exact ih tl (cu :: visited) all ((cu, cd) :: f) e r hsome hall he
        · rename_i html hfetch
          split at hsome
          · exact ih tl (cu :: visited) all ((cu, cd) :: f) e r hsome hall he
          · refine ih _ _ _ _ _ r hsome ?_ ?_
            · intro x hx
              rcases (processLinks_mem_all netloc true bd cd depth
                  (extract cu html) ⟨all, tl, e⟩ x).mp hx with h | ⟨_, hdom⟩
              · exact hall x h
              · exact domOk_true_eq netloc bd x hdom
            · intro p hp
              rcases (processLinks_mem_enq netloc true bd cd depth
                  (extract cu html) ⟨all, tl, e⟩ p).mp hp with h | ⟨l, _, hdom, _, h4⟩
              · exact he p h
              · rw [h4]
                exact domOk_true_eq netloc bd l hdom

/-- Fuel sufficiency for the crawl loop: when all reachable URLs live in a
finite set U closed under link extraction and every page yields at most B
links, the loop finishes within `|to_visit| + |U \ visited| * (B + 1)`
iterations, since skipping shortens the work list and processing shrinks the
unvisited part of U. -/
theorem crawlLoop_terminates (fetch : String → Option String)
    (extract : String → String → List String) (netloc : String → String)
    (depth : Nat) (sdo : Bool) (bd : String) (U : Finset String) (B : Nat)
    (hcl : ∀ u h, fetch u = some h → ∀ l ∈ extract u h, l ∈ U)
    (hB : ∀ u h, fetch u = some h → (extract u h).length ≤ B) :
    ∀ (fuel : Nat) (tv : List (String × Nat)) (visited all : List String)
      (f e : List (String × Nat)),
      (∀ p ∈ tv, p.1 ∈ U) →
      tv.length + (U.filter (fun x => x ∉ visited)).card * (B + 1) ≤ fuel →
      crawlLoop fetch extract netloc depth sdo bd fuel tv visited all f e ≠ none := by
  intro fuel
  induction fuel with
  | zero =>
    intro tv visited all f e htv hm
    cases tv with
    | nil =>
      rw [crawlLoop]
      simp
    | cons hd tl =>
      simp only [List.length_cons] at hm
      omega
  | succ fuel ih =>
    intro tv visited all f e htv hm
    cases tv with
    | nil =>
      rw [crawlLoop]
      simp
    | cons hd tl =>
      obtain ⟨cu, cd⟩ := hd
      rw [crawlLoop]
      by_cases hskip : cu ∈ visited ∨ depth < cd
      · rw [if_pos hskip]
        refine ih tl visited all f e (fun p hp => htv p (List.mem_cons_of_mem _ hp)) ?_
        simp only [List.length_cons] at hm
        omega
      · rw [if_neg hskip]
        have hcu_not : cu ∉ visited := fun h => hskip (Or.inl h)
        have hcuU : cu ∈ U := htv (cu, cd) (List.mem_cons_self _ _)
        have hcard : (U.filter (fun x => x ∉ cu :: visited)).card + 1 ≤
            (U.filter (fun x => x ∉ visited)).card := by
          have hsub : U.filter (fun x => x ∉ cu :: visited) ⊆
              (U.filter (fun x => x ∉ visited)).erase cu := by
            intro x hx
            rw [Finset.mem_filter] at hx
            refine Finset.mem_erase.mpr ⟨?_, Finset.mem_filter.mpr ⟨hx.1, ?_⟩⟩
            · intro hxc
              exact hx.2 (hxc ▸ List.mem_cons_self cu visited)
            · intro hxv
              exact hx.2 (List.mem_cons_of_mem _ hxv)
          have hmem : cu ∈ U.filter (fun x => x ∉ visited) :=
            Finset.mem_filter.mpr ⟨hcuU, hcu_not⟩
          have h1 : (U.filter (fun x => x ∉ cu :: visited)).card ≤
              ((U.filter (fun x => x ∉ visited)).erase cu).card :=
            Finset.card_le_card hsub
          have h2 : ((U.filter (fun x => x ∉ visited)).erase cu).card =
              (U.filter (fun x => x ∉ visited)).card - 1 :=
            Finset.card_erase_of_mem hmem
          have h3 : 1 ≤ (U.filter (fun x => x ∉ visited)).card :=
            Finset.card_pos.mpr ⟨cu, hmem⟩
          omega
        split
        · refine ih tl (cu :: visited) all ((cu, cd) :: f) e
            (fun p hp => htv p (List.mem_cons_of_mem _ hp)) ?_
          have hmul : (U.filter (fun x => x ∉ cu :: visited)).card * (B + 1) ≤
              (U.filter (fun x => x ∉ visited)).card * (B + 1) :=
            Nat.mul_le_mul_right _ (by omega)
          simp only [List.length_cons] at hm
          omega
        · rename_i html hfetch
          split
          · refine ih tl (cu :: visited) all ((cu, cd) :: f) e
              (fun p hp => htv p (List.mem_cons_of_mem _ hp)) ?_
            have hmul : (U.filter (fun x => x ∉ cu :: visited)).card * (B + 1) ≤
                (U.filter (fun x => x ∉ visited)).card * (B + 1) :=
              Nat.mul_le_mul_right _ (by omega)
            simp only [List.length_cons] at hm
            omega
          · refine ih _ (cu :: visited) _ ((cu, cd) :: f) _ ?_ ?_
            · intro p hp
              rcases (processLinks_mem_to_visit netloc sdo bd cd depth
                  (extract cu html) ⟨all, tl, e⟩ p).mp hp with h | ⟨l, h1, _, _, h4⟩
              · exact htv p (List.mem_cons_of_mem _ h)
              · rw [h4]
                exact hcl cu html hfetch l h1
            · have hlen := processLinks_to_visit_length netloc sdo bd cd depth
                (extract cu html) ⟨all, tl, e⟩
              have hext : (extract cu html).length ≤ B := hB cu html hfetch
              have hmul : ((U.filter (fun x => x ∉ cu :: visited)).card + 1) * (B + 1) ≤
                  (U.filter (fun x => x ∉ visited)).card * (B + 1) :=
                Nat.mul_le_mul_right _ hcard
              rw [Nat.succ_mul] at hmul
              simp only [List.length_cons] at hm hlen
              omega

/-- Each verification outcome lands in exactly one of the broken list and the
healthy count. -/
theorem brokenOf_length_add_healthy (outcomes : List (String × Bool × CheckStatus)) :
    (brokenOf outcomes).length + healthyCount outcomes = outcomes.length := by
  induction outcomes with
  | nil => simp [brokenOf, healthyCount]
  | cons r rs ih =>
    by_cases h : r.2.1 = true
    · simp only [brokenOf, healthyCount, List.filterMap_cons, List.filter_cons, h,
        if_pos, List.length_cons] at ih ⊢
      omega
    · have h' : r.2.1 = false := by revert h; cases r.2.1 <;> simp
      simp only [brokenOf, healthyCount, List.filterMap_cons, List.filter_cons, h',
        List.length_cons] at ih ⊢
      simp only [Bool.false_eq_true, if_false, List.length_cons]
      omega

/-- A nonempty broken list is exactly a non-healthy outcome being present. -/
theorem brokenOf_eq_nil_iff (outcomes : List (String × Bool × CheckStatus)) :
    brokenOf outcomes = [] ↔ ∀ r ∈ outcomes, r.2.1 = true := by
  induction outcomes with
  | nil => simp [brokenOf]
  | cons r rs ih =>
    by_cases h : r.2.1 = true
    · simp only [brokenOf, List.filterMap_cons, h, if_pos] at ih ⊢
      rw [ih]
      constructor
      · intro hall r2 hr2
        rcases List.mem_cons.mp hr2 with heq | hm
        · rw [heq]; exact h
        · exact hall r2 hm
      · intro hall r2 hr2
        exact hall r2 (List.mem_cons_of_mem _ hr2)
    · have h' : r.2.1 = false := by revert h; cases r.2.1 <;> simp
      simp only [brokenOf, List.filterMap_cons, h']
      simp only [Bool.false_eq_true, if_false]
      constructor
      · intro hc; cases hc
      · intro hall
        have := hall r (List.mem_cons_self _ _)
        rw [h'] at this
        cases this

/-! Claim theorems. -/

/-- C1 (amended): check_link performs only a HEAD probe, with no GET
escalation: the outcome is healthy exactly when HEAD answers a status below
400; a HEAD status s ≥ 400 yields Broken(s) — regardless of how a GET would
answer, since check_link consults no GET collaborator — and a HEAD transport
error yields Broken(error text).  The reported URL is always the probed
one. -/
theorem C1_theorem (head : String → Except String Nat) (url : String) :
    ((check_link head url).2.1 = true ↔ ∃ s, head url = Except.ok s ∧ s < 400) ∧
    (check_link head url).1 = url ∧
    (∀ s, head url = Except.ok s → 400 ≤ s →
      check_link head url = (url, false, CheckStatus.code s)) ∧
    (∀ e, head url = Except.error e →
      check_link head url = (url, false, CheckStatus.err e)) := by
  rcases h : head url with e | s
  · have hck : check_link head url = (url, false, CheckStatus.err e) := by
      simp [check_link, h]
    refine ⟨?_, ?_, ?_, ?_⟩
    · rw [hck]
      simp
    · rw [hck]
    · intro s hs
      cases hs
    · intro e2 he2
      rw [hck, Except.error.inj he2]
  · by_cases hs : 400 ≤ s
    · have hck : check_link head url = (url, false, CheckStatus.code s) := by
        simp [check_link, h, hs]
      refine ⟨?_, ?_, ?_, ?_⟩
      · rw [hck]
        simp
        omega
      · rw [hck]
      · intro s2 hs2 _
        rw [hck, Except.ok.inj hs2]
      · intro e2 he2
        cases he2
    · have hck : check_link head url = (url, true, CheckStatus.code s) := by
        simp [check_link, h, hs]
      refine ⟨?_, ?_, ?_, ?_⟩
      · rw [hck]
        simp
        omega
      · rw [hck]
      · intro s2 hs2 hge
        have heq : s = s2 := Except.ok.inj hs2
        omega
      · intro e2 he2
        cases he2

/-- C1 witness: a URL answering 404 on HEAD is reported Broken(404), by the
amended theorem applied at a concrete oracle. -/
theorem C1_witness :
    check_link (fun _ => Except.ok 404) "https://a.test/missing" =
      ("https://a.test/missing", false, CheckStatus.code 404) :=
  (C1_theorem (fun _ => Except.ok 404) "https://a.test/missing").2.2.1 404 rfl (by omega)

/-- C1 counterexample: a URL answering 405 on HEAD is reported Broken(405) by
the code, although the claim requires Healthy for a URL answering 405 on HEAD
and 200 on GET; check_link consults no GET collaborator, so its result is
independent of any GET behaviour. -/
theorem C1_counterexample :
    check_link (fun _ => Except.ok 405) "https://a.test/x" =
      ("https://a.test/x", false, CheckStatus.code 405) := by
  rfl

/-- C2 (code_bug evidence): at the repository's own test input
(test_broken_link_checker.py), extract_links resolves the fragment-only href
"#fragment" to "https://example.com#fragment" and returns it, a result that
contains the character '#'; the test asserts no result contains '#'. -/
theorem C2_code_bug :
    extract_links "https://example.com"
        ["https://example.com/page1", "/about", "#fragment"] =
      ["https://example.com/page1", "https://example.com/about",
        "https://example.com#fragment"] ∧
    ("https://example.com#fragment").toList.contains '#' = true := by
  constructor
  · rfl
  · rfl

/-- C8 (amended): fetch_page reports a failure exactly when the request
raises or the status differs from 200 (not: is non-2xx), and a failed fetch
of a popped entry is swallowed by the crawl loop: the entry is marked
visited and traversal continues with the remaining work list. -/
theorem C8_theorem :
    (∀ (http : String → Except String (Nat × String)) (url : String),
      fetch_page http url = none ↔ ¬ ∃ body, http url = Except.ok (200, body)) ∧
    (∀ (fetch : String → Option String) (extract : String → String → List String)
      (netloc : String → String) (depth : Nat) (sdo : Bool) (bd : String)
      (fuel : Nat) (cu : String) (cd : Nat) (rest : List (String × Nat))
      (visited all : List String) (f e : List (String × Nat)),
      cu ∉ visited → ¬ depth < cd → fetch cu = none →
      crawlLoop fetch extract netloc depth sdo bd (fuel + 1)
          ((cu, cd) :: rest) visited all f e =
        crawlLoop fetch extract netloc depth sdo bd fuel
          rest (cu :: visited) all ((cu, cd) :: f) e) := by
  constructor
  · intro http url
    rcases h : http url with e | p
    · simp [fetch_page, h]
    · obtain ⟨s, b⟩ := p
      by_cases hs : s = 200
      · subst hs
        simp [fetch_page, h]
      · simp only [fetch_page, h, if_neg hs]
        constructor
        · rintro _ ⟨body, hb⟩
          have := (Prod.mk.inj (Except.ok.inj hb)).1
          exact hs this
        · intro _
          trivial
  · intro fetch extract netloc depth sdo bd fuel cu cd rest visited all f e hv hd hf
    rw [crawlLoop, if_neg (fun h => Or.elim h hv hd), hf]

/-- C8 witness: the swallow equation of the amended theorem at a concrete
failing fetch. -/
theorem C8_witness :
    crawlLoop fetchNone extractNil netlocA 1 true "a.test" 3
        [("http://a.test", 0)] [] [] [] [] =
      crawlLoop fetchNone extractNil netlocA 1 true "a.test" 2
        [] ["http://a.test"] [] [("http://a.test", 0)] [] :=
  C8_theorem.2 fetchNone extractNil netlocA 1 true "a.test" 2 "http://a.test" 0
    [] [] [] [] [] (by simp) (by omega) rfl

/-- C8 counterexample: a response with status 204 — a 2xx success status —
and a nonempty body is reported as a fetch failure by the code, although the
claim allows failure only for transport errors and non-2xx statuses. -/
theorem C8_counterexample :
    fetch_page (fun _ => Except.ok (204, "no content")) "https://a.test/x" = none ∧
    200 ≤ 204 ∧ 204 < 300 := by
  refine ⟨rfl, by omega, by omega⟩

/-- C10: a fetch that succeeds with status 200 but an empty body is treated
identically to a fetch failure: fetch_page returns the empty text, the crawl
loop skips link extraction for the entry exactly as it does on a failed
fetch, and at depth 0 main aborts with exit code 1 even though the HTTP
fetch itself succeeded. -/
theorem C10_theorem :
    (∀ (http : String → Except String (Nat × String)) (url : String),
      http url = Except.ok (200, "") → fetch_page http url = some "") ∧
    (∀ (fetch : String → Option String) (extract : String → String → List String)
      (netloc : String → String) (depth : Nat) (sdo : Bool) (bd : String)
      (fuel : Nat) (cu : String) (cd : Nat) (rest : List (String × Nat))
      (visited all : List String) (f e : List (String × Nat)),
      cu ∉ visited → ¬ depth < cd → fetch cu = some "" →
      crawlLoop fetch extract netloc depth sdo bd (fuel + 1)
          ((cu, cd) :: rest) visited all f e =
        crawlLoop fetch extract netloc depth sdo bd fuel
          rest (cu :: visited) all ((cu, cd) :: f) e) ∧
    (∀ (http : String → Except String (Nat × String))
      (head : String → Except String Nat)
      (extract : String → String → List String) (netloc : String → String)
      (url : String) (sd : Bool) (fuel : Nat),
      fetch_page http (normalizeBase url) = some "" →
      main_exit http head extract netloc url 0 sd fuel = some 1) := by
  refine ⟨?_, ?_, ?_⟩
  · intro http url h
    simp [fetch_page, h]
  · intro fetch extract netloc depth sdo bd fuel cu cd rest visited all f e hv hd hf
    rw [crawlLoop, if_neg (fun h => Or.elim h hv hd), hf]
    rfl
  · intro http head extract netloc url sd fuel h
    simp [main_exit, discover, h]

/-- C10 witness: the three parts of the theorem at a concrete oracle whose
every answer is a 200 status with an empty body. -/
theorem C10_witness :
    fetch_page httpEmpty "http://a.test" = some "" ∧
    main_exit httpEmpty headOk extractNil netlocA "http://a.test" 0 false 1 = some 1 :=
  ⟨C10_theorem.1 httpEmpty "http://a.test" rfl,
    C10_theorem.2.2 httpEmpty headOk extractNil netlocA "http://a.test" false 1 rfl⟩

/-- At depth 0 a falsy seed page (fetch failure or empty body) makes the
discovery phase fatal. -/
theorem discover_depth0_fatal (http : String → Except String (Nat × String))
    (extract : String → String → List String) (netloc : String → String)
    (base : String) (sd : Bool) (fuel : Nat)
    (h : fetch_page http base = none ∨ fetch_page http base = some "") :
    discover http extract netloc base 0 sd fuel = some DiscoverResult.fatal := by
  rcases h with h | h <;> simp [discover, h]

/-- The discovery phase is fatal exactly in depth-0 mode with a falsy seed
page: with depth > 0 crawl swallows every fetch failure. -/
theorem discover_fatal_iff (http : String → Except String (Nat × String))
    (extract : String → String → List String) (netloc : String → String)
    (base : String) (depth : Nat) (sd : Bool) (fuel : Nat) :
    discover http extract netloc base depth sd fuel = some DiscoverResult.fatal ↔
      depth = 0 ∧
        (fetch_page http base = none ∨ fetch_page http base = some "") := by
  by_cases hd : 0 < depth
  · simp only [discover, if_pos hd]
    constructor
    · intro h
      rcases hc : crawl (fetch_page http) extract netloc base depth sd fuel with _ | r
      · rw [hc] at h
        cases h
      · rw [hc] at h
        cases Option.some.inj h
    · rintro ⟨h0, _⟩
      omega
  · have hd0 : depth = 0 := by omega
    subst hd0
    constructor
    · intro _
      refine ⟨rfl, ?_⟩
      by_contra hcon
      push_neg at hcon
      rcases hf : fetch_page http base with _ | html
      · exact hcon.1 hf
      · have hne : html ≠ "" := by
          intro heq
          exact hcon.2 (heq ▸ hf)
        rename_i hfatal
        simp [discover, hf, hne] at hfatal
    · intro ⟨_, h⟩
      exact discover_depth0_fatal http extract netloc base sd fuel h

/-- In depth-0 mode discovery always answers (no fuel is consumed). -/
theorem discover_depth0_ne_none (http : String → Except String (Nat × String))
    (extract : String → String → List String) (netloc : String → String)
    (base : String) (sd : Bool) (fuel : Nat) :
    discover http extract netloc base 0 sd fuel ≠ none := by
  rcases hf : fetch_page http base with _ | html
  · simp [discover, hf]
  · by_cases hh : html = ""
    · subst hh
      simp [discover, hf]
    · simp [discover, hf, hh]

/-- C3 (amended): the exit code is 1 exactly when depth = 0 and the seed page
fetch is falsy (None or empty body); it is 2 exactly when links were
discovered, at least one was found and its broken list is nonempty; it is 0
otherwise — in particular a run that discovers no links exits 0 ("No links
found." then a plain return), and with depth > 0 an unfetchable seed also
exits 0, because crawl swallows the failure and yields an empty link set. -/
theorem C3_theorem (http : String → Except String (Nat × String))
    (head : String → Except String Nat)
    (extract : String → String → List String) (netloc : String → String)
    (url : String) (depth : Nat) (sd : Bool) (fuel : Nat) :
    (main_exit http head extract netloc url depth sd fuel = some 1 ↔
      depth = 0 ∧ (fetch_page http (normalizeBase url) = none ∨
        fetch_page http (normalizeBase url) = some "")) ∧
    (main_exit http head extract netloc url depth sd fuel = some 2 ↔
      ∃ links, discover http extract netloc (normalizeBase url) depth sd fuel =
          some (DiscoverResult.found links) ∧ links ≠ [] ∧
        brokenOf (collectOutcomes head links) ≠ []) ∧
    (main_exit http head extract netloc url depth sd fuel = some 0 ↔
      ∃ links, discover http extract netloc (normalizeBase url) depth sd fuel =
          some (DiscoverResult.found links) ∧
        (links = [] ∨ brokenOf (collectOutcomes head links) = [])) := by
  rcases hdisc : discover http extract netloc (normalizeBase url) depth sd fuel with _ | dr
  · have hpos : depth ≠ 0 := by
      intro h0
      subst h0
      exact discover_depth0_ne_none http extract netloc (normalizeBase url) sd fuel hdisc
    have hmain : main_exit http head extract netloc url depth sd fuel = none := by
      simp [main_exit, hdisc]
    rw [hmain]
    refine ⟨⟨(fun h => by cases h), fun ⟨h0, _⟩ => absurd h0 hpos⟩, ?_, ?_⟩
    · constructor
      · intro h; cases h
      · rintro ⟨links, hl, _, _⟩
        cases hl
    · constructor
      · intro h; cases h
      · rintro ⟨links, hl, _⟩
        cases hl
  · cases dr with
    | fatal =>
      have hmain : main_exit http head extract netloc url depth sd fuel = some 1 := by
        simp [main_exit, hdisc]
      rw [hmain]
      refine ⟨⟨fun _ => ?_, fun _ => rfl⟩, ?_, ?_⟩
      · exact (discover_fatal_iff http extract netloc (normalizeBase url)
          depth sd fuel).mp hdisc
      · constructor
        · intro h; cases h
        · rintro ⟨links, hl, _, _⟩
          simp at hl
      · constructor
        · intro h; cases h
        · rintro ⟨links, hl, _⟩
          simp at hl
    | found links =>
      have hnotfatal : ¬ (depth = 0 ∧
          (fetch_page http (normalizeBase url) = none ∨
            fetch_page http (normalizeBase url) = some "")) := by
        intro hcon
        have hft := (discover_fatal_iff http extract netloc (normalizeBase url)
          depth sd fuel).mpr hcon
        rw [hdisc] at hft
        simp at hft
      by_cases hnil : links = []
      · subst hnil
        have hmain : main_exit http head extract netloc url depth sd fuel = some 0 := by
          simp [main_exit, hdisc]
        rw [hmain]
        refine ⟨⟨(fun h => by cases h), fun hcon => absurd hcon hnotfatal⟩, ?_, ?_⟩
        · constructor
          · intro h; cases h
          · rintro ⟨links2, hl, hne, _⟩
            exact absurd (DiscoverResult.found.inj (Option.some.inj hl)).symm hne
        · exact ⟨fun _ => ⟨[], rfl, Or.inl rfl⟩, fun _ => rfl⟩
      · by_cases hbr : brokenOf (collectOutcomes head links) = []
        · have hmain : main_exit http head extract netloc url depth sd fuel = some 0 := by
            simp [main_exit, hdisc, hnil, hbr]
          rw [hmain]
          refine ⟨⟨(fun h => by cases h), fun hcon => absurd hcon hnotfatal⟩, ?_, ?_⟩
          · constructor
            · intro h; cases h
            · rintro ⟨links2, hl, _, hbr2⟩
              have heql : links = links2 := DiscoverResult.found.inj (Option.some.inj hl)
              rw [heql] at hbr
              exact absurd hbr hbr2
          · exact ⟨fun _ => ⟨links, rfl, Or.inr hbr⟩, fun _ => rfl⟩
        · have hmain : main_exit http head extract netloc url depth sd fuel = some 2 := by
            simp [main_exit, hdisc, hnil, hbr]
          rw [hmain]
          refine ⟨⟨(fun h => by cases h), fun hcon => absurd hcon hnotfatal⟩, ?_, ?_⟩
          · exact ⟨fun _ => ⟨links, rfl, hnil, hbr⟩, fun _ => rfl⟩
          · constructor
            · intro h; cases h
            · rintro ⟨links2, hl, hor⟩
              have heql : links = links2 := DiscoverResult.found.inj (Option.some.inj hl)
              rcases hor with h | h
              · exact absurd (heql.trans h) hnil
              · rw [heql] at hbr
                exact absurd h hbr

/-- C3 witness: the amended characterization applied at depth 0 with a seed
whose fetch raises, giving exit code 1. -/
theorem C3_witness :
    main_exit httpRefused headOk extractNil netlocA "http://a.test" 0 false 1 = some 1 :=
  (C3_theorem httpRefused headOk extractNil netlocA "http://a.test" 0 false 1).1.mpr
    ⟨rfl, Or.inl rfl⟩

/-- C3 counterexample: with depth 1 and a seed whose fetch raises, the claim
demands exit code 1 (fatal: seed unfetchable, and also no links discovered),
but the program exits 0: crawl swallows the seed failure, the link set is
empty, and main prints "No links found." and returns normally. -/
theorem C3_counterexample :
    fetch_page httpRefused "http://a.test" = none ∧
    main_exit httpRefused headOk extractNil netlocA "http://a.test" 1 false 2 = some 0 := by
  exact ⟨rfl, rfl⟩

/-- In a duplicate-free list, exactly one entry tests equal to any given
member. -/
theorem countP_beq_eq_one_of_nodup (links : List String) (url : String)
    (hnd : links.Nodup) (hmem : url ∈ links) :
    links.countP (fun u => u == url) = 1 := by
  induction links with
  | nil => cases hmem
  | cons a as ih =>
    rw [List.countP_cons]
    rcases List.mem_cons.mp hmem with heq | hmem2
    · subst heq
      have hnotin : url ∉ as := (List.nodup_cons.mp hnd).1
      have h0 : as.countP (fun u => u == url) = 0 := by
        rw [List.countP_eq_zero]
        intro u hu
        simp only [beq_iff_eq]
        intro heq2
        exact hnotin (heq2 ▸ hu)
      simp [h0]
    · have hne : a ≠ url := by
        intro heq2
        exact (List.nodup_cons.mp hnd).1 (heq2 ▸ hmem2)
      have hrec := ih (List.nodup_cons.mp hnd).2 hmem2
      simp [hrec, hne]

/-- C4: for a list of K distinct URLs handed to the verification stage, the
number of outcomes (the Run Summary total) equals K, the broken entries plus
the healthy outcomes number K, and exactly one outcome is produced per
distinct URL. -/
theorem C4_theorem (head : String → Except String Nat) (links : List String)
    (hnd : links.Nodup) :
    (collectOutcomes head links).length = links.length ∧
    (brokenOf (collectOutcomes head links)).length +
        healthyCount (collectOutcomes head links) = links.length ∧
    ∀ url ∈ links,
      (collectOutcomes head links).countP (fun r => r.1 == url) = 1 := by
  refine ⟨by simp [collectOutcomes], ?_, ?_⟩
  · rw [brokenOf_length_add_healthy]
    simp [collectOutcomes]
  · intro url hmem
    rw [collectOutcomes, List.countP_map]
    have hcong : ∀ u ∈ links,
        (((fun r : String × Bool × CheckStatus => r.1 == url) ∘ check_link head) u = true ↔
          (fun u : String => u == url) u = true) := by
      intro u _
      simp only [Function.comp]
      rw [check_link_fst]
    rw [List.countP_congr hcong]
    exact countP_beq_eq_one_of_nodup links url hnd hmem

/-- C4 witness: the pipeline totals at a concrete two-URL input. -/
theorem C4_witness :
    (["https://a.test/ok", "https://a.test/missing"] : List String).Nodup ∧
    ((collectOutcomes headOk ["https://a.test/ok", "https://a.test/missing"]).length =
        (["https://a.test/ok", "https://a.test/missing"] : List String).length ∧
      (brokenOf (collectOutcomes headOk
            ["https://a.test/ok", "https://a.test/missing"])).length +
          healthyCount (collectOutcomes headOk
            ["https://a.test/ok", "https://a.test/missing"]) =
        (["https://a.test/ok", "https://a.test/missing"] : List String).length ∧
      ∀ url ∈ (["https://a.test/ok", "https://a.test/missing"] : List String),
        (collectOutcomes headOk
            ["https://a.test/ok", "https://a.test/missing"]).countP
          (fun r => r.1 == url) = 1) :=
  ⟨by decide,
    C4_theorem headOk ["https://a.test/ok", "https://a.test/missing"] (by decide)⟩

/-- C5: depth bounding of the crawl frontier — every entry ever enqueued has
depth at most the configured maximum; every fetched URL is reachable from
the seed within maxDepth steps of the link graph; the domain-passing links of
every fetched page (the pages fetched at exactly maxDepth included) are in
the result set; and a URL not reachable within maxDepth (in particular one
reachable only at distance maxDepth + 1, as a link of a depth-maxDepth page)
is never fetched and never enqueued. -/
theorem C5_theorem (fetch : String → Option String)
    (extract : String → String → List String) (netloc : String → String)
    (base : String) (depth : Nat) (sdo : Bool) (fuel : Nat) (r : CrawlResult)
    (h : crawl fetch extract netloc base depth sdo fuel = some r) :
    (∀ p ∈ r.enq, p.2 ≤ depth) ∧
    (∀ p ∈ r.fetched,
      Reach base (linksOf fetch extract netloc sdo (netloc base)) depth p.1) ∧
    (∀ p ∈ r.fetched,
      ∀ l ∈ linksOf fetch extract netloc sdo (netloc base) p.1, l ∈ r.all_links) ∧
    (∀ u, ¬ Reach base (linksOf fetch extract netloc sdo (netloc base)) depth u →
      ∀ d, (u, d) ∉ r.fetched ∧ (u, d) ∉ r.enq) := by
  rw [crawl] at h
  have h1 := crawlLoop_enq_depth fetch extract netloc depth sdo (netloc base) fuel
    [(base, 0)] [] [] [] [(base, 0)] r h
    (by intro p hp; simp at hp; rw [hp]; simp)
  have h2 := crawlLoop_reach fetch extract netloc depth sdo (netloc base) base fuel
    [(base, 0)] [] [] [] [(base, 0)] r h
    (by intro p hp; simp at hp; rw [hp]; rfl)
    (by intro p hp; cases hp)
    (by
      intro p hp
      simp at hp
      rw [hp]
      exact Reach_mono base _ depth 0 (Nat.zero_le depth) base rfl)
  have h3 := crawlLoop_links_complete fetch extract netloc depth sdo (netloc base) fuel
    [(base, 0)] [] [] [] [(base, 0)] r h
    (by intro p hp; cases hp)
  refine ⟨h1, h2.1, h3, ?_⟩
  intro u hnr d
  constructor
  · intro hmem
    exact hnr (h2.1 (u, d) hmem)
  · intro hmem
    exact hnr (h2.2 (u, d) hmem)

/-- C5 witness: the depth bound of the enqueue trace on the demo graph. -/
theorem C5_witness :
    crawl fetchDemo extractDemo netlocDemo "https://a.test/" 1 true 5 = some crawlDemo ∧
    (∀ p ∈ crawlDemo.enq, p.2 ≤ 1) :=
  ⟨rfl,
    (C5_theorem fetchDemo extractDemo netlocDemo "https://a.test/" 1 true 5
      crawlDemo rfl).1⟩

/-- C6: during one crawl invocation every URL is fetched at most once — the
trace of fetch_page calls carries pairwise distinct URLs, however often a
URL is referenced or enqueued. -/
theorem C6_theorem (fetch : String → Option String)
    (extract : String → String → List String) (netloc : String → String)
    (base : String) (depth : Nat) (sdo : Bool) (fuel : Nat) (r : CrawlResult)
    (h : crawl fetch extract netloc base depth sdo fuel = some r) :
    (r.fetched.map Prod.fst).Nodup := by
  rw [crawl] at h
  exact crawlLoop_nodup fetch extract netloc depth sdo (netloc base) fuel
    [(base, 0)] [] [] [] [(base, 0)] r h (by simp) (by intro p hp; cases hp)

/-- C6 witness: the fetch trace of the demo graph has distinct URLs. -/
theorem C6_witness :
    crawl fetchDemo extractDemo netlocDemo "https://a.test/" 1 true 5 = some crawlDemo ∧
    (crawlDemo.fetched.map Prod.fst).Nodup :=
  ⟨rfl,
    C6_theorem fetchDemo extractDemo netlocDemo "https://a.test/" 1 true 5
      crawlDemo rfl⟩

/-- C7: with the same-domain filter enabled, every URL in the crawl result
set has the seed's netloc, every enqueued entry has the seed's netloc, and a
cross-domain link is discarded entirely — it reaches neither the result set
nor the work list. -/
theorem C7_theorem (fetch : String → Option String)
    (extract : String → String → List String) (netloc : String → String)
    (base : String) (depth : Nat) (fuel : Nat) (r : CrawlResult)
    (h : crawl fetch extract netloc base depth true fuel = some r) :
    (∀ l ∈ r.all_links, netloc l = netloc base) ∧
    (∀ p ∈ r.enq, netloc p.1 = netloc base) ∧
    (∀ u, netloc u ≠ netloc base → u ∉ r.all_links ∧ ∀ d, (u, d) ∉ r.enq) := by
  rw [crawl] at h
  have hd := crawlLoop_domain fetch extract netloc depth (netloc base) fuel
    [(base, 0)] [] [] [] [(base, 0)] r h
    (by intro x hx; cases hx)
    (by intro p hp; simp at hp; rw [hp])
  refine ⟨hd.1, hd.2, ?_⟩
  intro u hne
  constructor
  · intro hmem
    exact hne (hd.1 u hmem)
  · intro d hmem
    exact hne (hd.2 (u, d) hmem)

/-- C7 witness: the same-domain filter on the demo graph, whose seed page
also links to a cross-domain URL. -/
theorem C7_witness :
    crawl fetchDemo extractDemo netlocDemo "https://a.test/" 1 true 5 = some crawlDemo ∧
    (∀ l ∈ crawlDemo.all_links, netlocDemo l = netlocDemo "https://a.test/") :=
  ⟨rfl,
    (C7_theorem fetchDemo extractDemo netlocDemo "https://a.test/" 1 5
      crawlDemo rfl).1⟩

/-- C9: crawl terminates on every finite link graph: when the seed and all
extractable links live in a finite set U and every page yields at most B
links, fuel 1 + |U| * (B + 1) suffices for the work-list loop to empty — the
visited set bounds re-fetching and the depth guard bounds expansion. -/
theorem C9_theorem (fetch : String → Option String)
    (extract : String → String → List String) (netloc : String → String)
    (base : String) (depth : Nat) (sdo : Bool) (U : Finset String) (B : Nat)
    (hbase : base ∈ U)
    (hcl : ∀ u h, fetch u = some h → ∀ l ∈ extract u h, l ∈ U)
    (hB : ∀ u h, fetch u = some h → (extract u h).length ≤ B) :
    crawl fetch extract netloc base depth sdo (1 + U.card * (B + 1)) ≠ none := by
  rw [crawl]
  refine crawlLoop_terminates fetch extract netloc depth sdo (netloc base) U B hcl hB
    (1 + U.card * (B + 1)) [(base, 0)] [] [] [] [(base, 0)] ?_ ?_
  · intro p hp
    simp at hp
    rw [hp]
    exact hbase
  · have hfil : U.filter (fun x => x ∉ ([] : List String)) = U := by
      apply Finset.filter_true_of_mem
      intro x _
      simp
    rw [hfil]
    simp

/-- C9 witness: the termination bound at a one-URL universe whose fetches all
fail (fuel 1 + 1 * 1 = 2 suffices). -/
theorem C9_witness :
    crawl fetchNone extractNil netlocA "http://a.test" 1 true
      (1 + ({"http://a.test"} : Finset String).card * (0 + 1)) ≠ none :=
  C9_theorem fetchNone extractNil netlocA "http://a.test" 1 true
    ({"http://a.test"} : Finset String) 0
    (by simp)
    (by intro u h hcon; cases hcon)
    (by intro u h hcon; cases hcon)

end BLC
